import Mathlib

/-!
Shallow embedding of the catawiki/proc_exporter classification engine and
aggregation pass.

Sources:
* the matcher / config package (types `NameAndCmdline`, `MatchNamer`,
  `Matcher`, `FirstMatcher`, `commMatcher`, `exeMatcher`, `cmdlineMatcher`,
  `andMatcher`, `matchNamer`, `templateParams`, functions
  `FirstMatcher.MatchAndName`, `matchNamer.MatchAndName`, `commMatcher.Match`,
  `exeMatcher.Match`, `cmdlineMatcher.Match`, `andMatcher.Match`,
  `getMatchNamer`);
* `collector/collector.go` (`groupKey`, `procGroup`, `procCollector`,
  `NewProcCollector`, `procCollector.readProcGroups`, `getProcAccount`);
* `proc_exporter.go` (`main`'s construction of the `MatchNamer`).

Modelling conventions:
* Go maps (`map[string]string`, `map[groupKey]*procGroup`) are association
  lists in which an insert removes the previous binding of the key and puts
  the new binding at the front; lookups therefore agree with Go map lookups.
* Go's `float64` quantities (CPU seconds, start times) are modelled as `ℚ`:
  the claims under study concern ordering and accumulation, not rounding.
* The Go `regexp` library is an external collaborator; a compiled regex is
  modelled as its observable interface (`FindStringSubmatch`, `SubexpNames`),
  and the concrete regexes appearing in the spec's examples are modelled as
  executable functions implementing those patterns' documented semantics.
* Failures of external reads (`procfs`, account lookup) are `Option`-valued
  inputs; a Go runtime panic (nil-interface method call) is modelled by the
  whole pass returning `none`.
-/

namespace ProcExporter

/-- Per-process input to classification (`NameAndCmdline` in the source). -/
structure NameAndCmdline where
  name : String
  cmdline : List String
  deriving DecidableEq, Repr

/-- A capture map `map[string]string`, as an association list; lookups take
the first binding of a key. -/
abbrev CaptureSet := List (String × String)

/-- Go map lookup `m[k]` on the association-list model. -/
def capLookup (m : CaptureSet) (k : String) : Option String :=
  match m with
  | [] => none
  | (k', v) :: rest => if k' = k then some v else capLookup rest k

/-- Go map insert `m[k] = v`: the new binding replaces any previous binding
of `k`. -/
def capInsert (m : CaptureSet) (k v : String) : CaptureSet :=
  (k, v) :: m.filter (fun p => p.1 ≠ k)

/-- Go `filepath.Base` (Unix rules): empty path gives ".", trailing slashes
are stripped, the last path element is returned, and a path of only slashes
gives "/". -/
def filepathBase (path : String) : String :=
  if path = "" then "."
  else
    let r := path.data.reverse.dropWhile (fun c => c = '/')
    if r = [] then "/"
    else String.mk (r.takeWhile (fun c => c ≠ '/')).reverse

/-- The observable interface of a compiled Go regex, the external
collaborator used by `cmdlineMatcher`: `FindStringSubmatch` returns `none`
for no match, or the whole match followed by each submatch;
`SubexpNames` returns the name of each parenthesized group, `""` for the
whole match and for unnamed groups. -/
structure Regexp where
  subexpNames : List String
  findStringSubmatch : String → Option (List String)

/-- The Go regexp library's invariant: a successful `FindStringSubmatch`
returns exactly one string per entry of `SubexpNames`. -/
def Regexp.Wf (r : Regexp) : Prop :=
  ∀ s caps, r.findStringSubmatch s = some caps → caps.length = r.subexpNames.length

/-- The closed set of matcher primitives configured by `getMatchNamer`:
`commMatcher` (set of command names), `exeMatcher` (basename-indexed map of
required full paths, `""` meaning no required path), `cmdlineMatcher`
(list of compiled regexes). -/
inductive PrimMatcher where
  | comm (comms : List String)
  | exe (exes : List (String × String))
  | cmdline (regexes : List Regexp)

/-- `exeMatcher.Match`: fails on empty cmdline; looks up the basename of the
first cmdline token; a bound empty path means "basename only", otherwise the
first token must equal the bound full path. -/
def exeMatch (exes : List (String × String)) (nacl : NameAndCmdline) :
    Bool × Option CaptureSet :=
  match nacl.cmdline with
  | [] => (false, none)
  | c0 :: _ =>
    match capLookup exes (filepathBase c0) with
    | none => (false, none)
    | some fqpath =>
      if fqpath = "" then (true, none)
      else (decide (fqpath = c0), none)

/-- The loop body of `cmdlineMatcher.Match`: each regex must find a match in
the joined cmdline; the i-th capture is inserted under the i-th subexp name
(index 0, the whole match, is inserted under `""`). -/
def cmdlineLoop (s : String) : List Regexp → CaptureSet → Bool × Option CaptureSet
  | [], acc => (true, some acc)
  | r :: rest, acc =>
    match r.findStringSubmatch s with
    | none => (false, none)
    | some caps =>
      if r.subexpNames.length ≠ caps.length then (false, none)
      else cmdlineLoop s rest
        ((r.subexpNames.zip caps).foldl (fun a p => capInsert a p.1 p.2) acc)

/-- `cmdlineMatcher.Match`: joins the cmdline with single spaces and runs
every configured regex over the joined string. -/
def cmdlineMatch (regexes : List Regexp) (nacl : NameAndCmdline) :
    Bool × Option CaptureSet :=
  cmdlineLoop (String.intercalate " " nacl.cmdline) regexes []

/-- Dispatch over the `Matcher` interface for the three configured
primitives (`commMatcher.Match`, `exeMatcher.Match`, `cmdlineMatcher.Match`).
`commMatcher.Match` is set membership of the process name, with no
captures. -/
def primMatch : PrimMatcher → NameAndCmdline → Bool × Option CaptureSet
  | .comm comms, nacl => (decide (nacl.name ∈ comms), none)
  | .exe exes, nacl => exeMatch exes nacl
  | .cmdline regexes, nacl => cmdlineMatch regexes nacl

/-- The loop body of `andMatcher.Match`: evaluates each primitive in order,
short-circuits to `(false, nil)` on any failure, and copies each successful
matcher's (non-nil) captures into the accumulated map. -/
def andLoop (nacl : NameAndCmdline) :
    List PrimMatcher → CaptureSet → Bool × Option CaptureSet
  | [], acc => (true, some acc)
  | m :: rest, acc =>
    match primMatch m nacl with
    | (false, _) => (false, none)
    | (true, caps) =>
      andLoop nacl rest
        (match caps with
         | none => acc
         | some cs => cs.foldl (fun a p => capInsert a p.1 p.2) acc)

/-- `andMatcher.Match`: conjunction of the configured primitives, merging
their captures. -/
def andMatch (ms : List PrimMatcher) (nacl : NameAndCmdline) :
    Bool × Option CaptureSet :=
  andLoop nacl ms []

/-- A parsed `text/template`, the external collaborator used by
`templateNamer`: modelled by its rendering function over the closed
parameter record. -/
structure templateParams where
  Comm : String
  ExeBase : String
  ExeFull : String
  Matches : CaptureSet

/-- A compiled name template, modelled by its `Execute` behaviour. -/
structure Template where
  execute : templateParams → String

/-- The parsed form of the literal template `\x7b\x7b.ExeBase\x7d\x7d`
(models the Go `text/template` semantics of that template: it renders the
`ExeBase` field). -/
def exeBaseTemplate : Template :=
  { execute := fun p => p.ExeBase }

/-- The template-selection step of `getMatchNamer`: an absent / empty `name`
entry falls back to the default template rendering `ExeBase`; otherwise the
configured template (compiled by the external library) is used. -/
def selectTemplate (nametmpl : String) (compiled : Template) : Template :=
  if nametmpl = "" then exeBaseTemplate else compiled

/-- The `matchNamer` struct: an `andMatcher` plus a compiled name
template. -/
structure MatchNamerS where
  matchers : List PrimMatcher
  tmpl : Template

/-- `matchNamer.MatchAndName`: runs the conjunction; on success computes
`ExeBase`/`ExeFull` from the first cmdline token (falling back to the
process name for an empty cmdline) and renders the template. -/
def matchAndName (m : MatchNamerS) (nacl : NameAndCmdline) : Bool × String :=
  match andMatch m.matchers nacl with
  | (false, _) => (false, "")
  | (true, mcaps) =>
    let exefull := match nacl.cmdline with
      | [] => nacl.name
      | c :: _ => c
    let exebase := match nacl.cmdline with
      | [] => nacl.name
      | c :: _ => filepathBase c
    (true, m.tmpl.execute
      { Comm := nacl.name, ExeBase := exebase, ExeFull := exefull
        Matches := mcaps.getD [] })

/-- `FirstMatcher`: the ordered rule set produced by the config parser. -/
abbrev FirstMatcher := List MatchNamerS

/-- `FirstMatcher.MatchAndName`: evaluates the rules in order and returns
the first successful match's name; `(false, "")` when none matches. -/
def firstMatchAndName (f : FirstMatcher) (nacl : NameAndCmdline) : Bool × String :=
  match f with
  | [] => (false, "")
  | m :: rest =>
    match matchAndName m nacl with
    | (true, name) => (true, name)
    | (false, _) => firstMatchAndName rest nacl

/-- The `exe:` normalization step of `getMatchNamer`: an entry containing a
slash is indexed by its basename with the full path remembered; a bare name
is indexed with no required path. Later entries overwrite earlier ones, as
Go map inserts do. -/
def buildExes (exe : List String) : List (String × String) :=
  exe.foldl
    (fun m e =>
      if e.data.contains '/' then capInsert m (filepathBase e) e
      else capInsert m e "")
    []

/-! ### Collector (`collector/collector.go`) -/

/-- `userHZ`, the OS clock-tick rate used to convert ticks to seconds. -/
def userHZ : ℚ := 100

/-- The bucket key of the aggregation pass (`groupKey`). -/
structure groupKey where
  account : String
  groupname : String
  deriving DecidableEq, Repr

/-- One per-(account, group) accumulator (`procGroup`). CPU seconds and
start times are `float64` in the source, modelled as `ℚ`. -/
structure procGroup where
  name : String
  account : String
  cpuSystem : ℚ
  cpuUser : ℚ
  memVirt : ℕ
  memRss : ℕ
  numProcs : ℕ
  numThreads : ℕ
  oldestStartTime : ℚ
  deriving DecidableEq, Repr

/-- The group map `map[groupKey]*procGroup`, as an association list with at
most one binding per key. -/
abbrev Groups := List (groupKey × procGroup)

/-- Go map lookup `procGroups[gkey]` (nil pointer modelled as `none`). -/
def lookupGroup (gs : Groups) (k : groupKey) : Option procGroup :=
  match gs with
  | [] => none
  | (k', g) :: rest => if k' = k then some g else lookupGroup rest k

/-- Go map insert `procGroups[gkey] = g`: replaces any previous binding. -/
def insertGroup (gs : Groups) (k : groupKey) (g : procGroup) : Groups :=
  (k, g) :: gs.filter (fun p => p.1 ≠ k)

/-- The per-process fields read from `/proc/<pid>/stat` via `p.NewStat()`
(the procfs external collaborator). `float64` conversions happen at use
sites; tick counts and byte/thread counts are modelled as `ℕ`. -/
structure ProcStat where
  comm : String
  utime : ℕ
  stime : ℕ
  virtualMemory : ℕ
  residentMemory : ℕ
  numThreads : ℕ
  starttime : ℕ
  deriving DecidableEq, Repr

/-- One enumerated process together with the outcomes of its external reads:
`newStat` (`p.NewStat()`), `cmdLine` (`p.CmdLine()`) and the
`getProcAccount` resolution of its owner; `none` models the corresponding
read returning an error. -/
structure ProcData where
  pid : ℤ
  newStat : Option ProcStat
  cmdLine : Option (List String)
  account : Option String
  deriving DecidableEq, Repr

/-- The `oldestStartTime` update of the accumulator (collector.go lines
190–192): the stored value is replaced when it is the 0 sentinel or when
the new start time is strictly smaller. -/
def oldestUpdate (cur startTime : ℚ) : ℚ :=
  if cur = 0 ∨ startTime < cur then startTime else cur

/-- The accumulator update block of `readProcGroups` (lines 167–192):
derives the per-process metrics from the stat fields, fetches or lazily
creates the group for `(account, gname)`, and folds the metrics in. -/
def procMetricsUpdate (gs : Groups) (gname account : String) (stat : ProcStat)
    (bootTime : ℕ) : Groups :=
  let cpuSystem : ℚ := (stat.stime : ℚ) / userHZ
  let cpuUser : ℚ := (stat.utime : ℚ) / userHZ
  let memVirt := stat.virtualMemory
  let memRss := stat.residentMemory
  let numThreads := stat.numThreads
  let startTime : ℚ := (bootTime : ℚ) + (stat.starttime : ℚ) / userHZ
  let gkey : groupKey := ⟨account, gname⟩
  let g := match lookupGroup gs gkey with
    | some g => g
    | none =>
        { name := gname, account := account, cpuSystem := 0, cpuUser := 0
          memVirt := 0, memRss := 0, numProcs := 0, numThreads := 0
          oldestStartTime := 0 }
  insertGroup gs gkey
    { g with
      cpuSystem := g.cpuSystem + cpuSystem
      cpuUser := g.cpuUser + cpuUser
      memVirt := g.memVirt + memVirt
      memRss := g.memRss + memRss
      numProcs := g.numProcs + 1
      numThreads := g.numThreads + numThreads
      oldestStartTime := oldestUpdate g.oldestStartTime startTime }

/-- The matched-process tail of one loop iteration of `readProcGroups`
(lines 154–192), after both reads succeeded: classify, drop silently when
unmatched, otherwise resolve the account (an error counts one scrape error
and leaves the account as the empty string) and fold the metrics in. -/
def procStepMatched (f : FirstMatcher) (bootTime : ℕ) (st : Groups × ℕ)
    (stat : ProcStat) (cmdline : List String) (account : Option String) :
    Groups × ℕ :=
  match firstMatchAndName f ⟨stat.comm, cmdline⟩ with
  | (false, _) => st
  | (true, gname) =>
    match account with
    | some acct => (procMetricsUpdate st.1 gname acct stat bootTime, st.2)
    | none => (procMetricsUpdate st.1 gname "" stat bootTime, st.2 + 1)

/-- One loop iteration of `readProcGroups` (lines 140–193) over the state
(group map, scrape-error count). A failing stat or cmdline read counts one
scrape error and skips the process. Calling `MatchAndName` on a nil
`matchnamer` interface is a Go runtime panic, modelled as `none`. -/
def procStep (mn : Option FirstMatcher) (bootTime : ℕ) (st : Groups × ℕ)
    (p : ProcData) : Option (Groups × ℕ) :=
  match p.newStat with
  | none => some (st.1, st.2 + 1)
  | some stat =>
    match p.cmdLine with
    | none => some (st.1, st.2 + 1)
    | some cmdline =>
      match mn with
      | none => none
      | some f => some (procStepMatched f bootTime st stat cmdline p.account)

/-- The process loop of `readProcGroups`, threading the state through
`procStep` and propagating a panic. -/
def procLoop (mn : Option FirstMatcher) (bootTime : ℕ) :
    List ProcData → Groups × ℕ → Option (Groups × ℕ)
  | [], st => some st
  | p :: rest, st =>
    match procStep mn bootTime st p with
    | none => none
    | some st' => procLoop mn bootTime rest st'

/-- The external inputs of one aggregation pass: the process-table
enumeration (`procfs.AllProcs`) and the boot-time read (`procfs.NewStat`),
each of which may fail. -/
structure ScrapeInput where
  allProcs : Option (List ProcData)
  bootTime : Option ℕ
  deriving DecidableEq, Repr

/-- The collector state relevant to the pass: the configured `MatchNamer`
(a nil interface is `none`) and the scrape-error counter. -/
structure ProcCollector where
  procfsPath : String
  matchnamer : Option FirstMatcher
  errorsScrape : ℕ

/-- `NewProcCollector`: stores the procfs path and the given `MatchNamer`
(possibly nil) with a zero error counter. -/
def NewProcCollector (procfsPath : String) (mn : Option FirstMatcher) :
    ProcCollector :=
  { procfsPath := procfsPath, matchnamer := mn, errorsScrape := 0 }

/-- `procCollector.readProcGroups`: a failing process enumeration counts an
error and yields no groups; a failing boot-time read counts an error and
leaves the zero-value boot time; then the process loop runs. The result is
the group map and the updated scrape-error counter, or `none` for a runtime
panic. -/
def readProcGroups (c : ProcCollector) (inp : ScrapeInput) :
    Option (Groups × ℕ) :=
  match inp.allProcs with
  | none => some ([], c.errorsScrape + 1)
  | some procs =>
    let st := match inp.bootTime with
      | none => ((0 : ℕ), c.errorsScrape + 1)
      | some bt => (bt, c.errorsScrape)
    procLoop c.matchnamer st.1 procs ([], st.2)

/-- The `MatchNamer` selection in `main` (proc_exporter.go lines 27–36):
the `matchnamer` variable stays a nil interface unless a config path was
given, in which case it is the parsed config's `FirstMatcher`. -/
def mainMatchnamer (configPath : String) (parsed : FirstMatcher) :
    Option FirstMatcher :=
  if configPath = "" then none else some parsed

/-! ### Concrete regexes of the spec's examples

The Go `regexp` library is external; the two patterns appearing in the
spec's worked example are modelled as executable functions implementing
RE2's documented leftmost-match semantics for exactly those patterns. -/

/-- Checks that the first list is a prefix of the second, returning the
remainder. -/
def dropPref : List Char → List Char → Option (List Char)
  | [], cs => some cs
  | _ :: _, [] => none
  | p :: ps, c :: cs => if p = c then dropPref ps cs else none

/-- Go's `\w` character class: `[0-9A-Za-z_]`. -/
def wordChar (c : Char) : Bool :=
  c.isAlphanum || c = '_'

/-- Models the compiled Go regex for the pattern `^worker`: it matches iff
the string starts with `worker`; the sole capture is the whole match and
the sole subexp name is `""`. -/
def reWorker : Regexp :=
  { subexpNames := [""]
    findStringSubmatch := fun s =>
      match dropPref "worker".data s.data with
      | some _ => some ["worker"]
      | none => none }

/-- A match of the pattern `--role=(?P<role>\w+)` anchored at the start of
the given characters: the literal `--role=` followed by a maximal non-empty
run of word characters. -/
def roleAt (cs : List Char) : Option (List String) :=
  match dropPref "--role=".data cs with
  | none => none
  | some rest =>
    let w := rest.takeWhile wordChar
    if w = [] then none
    else some [String.mk ("--role=".data ++ w), String.mk w]

/-- Leftmost match of `--role=(?P<role>\w+)`: tries each start position
from the left. -/
def findRole : List Char → Option (List String)
  | [] => roleAt []
  | c :: rest =>
    match roleAt (c :: rest) with
    | some r => some r
    | none => findRole rest

/-- Models the compiled Go regex for the pattern `--role=(?P<role>\w+)`:
subexp 0 is the whole match (name `""`), subexp 1 is the named group
`role`. -/
def reRole : Regexp :=
  { subexpNames := ["", "role"]
    findStringSubmatch := fun s => findRole s.data }

/-! ### Observation helpers used to state the claims -/

/-- Left-biased choice on `Option`, used to state lookup precedence. -/
def optOr (a b : Option String) : Option String :=
  match a with
  | some x => some x
  | none => b

/-- The (subexp-name, capture) pairs one regex contributes on the search
string `s`, in insertion order. -/
def regexPairs (r : Regexp) (s : String) : List (String × String) :=
  match r.findStringSubmatch s with
  | none => []
  | some caps => r.subexpNames.zip caps

/-- All (subexp-name, capture) pairs the regex list contributes on `s`, in
insertion order. -/
def allPairs (rs : List Regexp) (s : String) : List (String × String) :=
  (rs.map (fun r => regexPairs r s)).flatten

/-- The lookup the merged capture set of `andMatcher.Match` should realize:
a key's value comes from the last primitive in the list that produced that
key (later matchers overwrite earlier ones). -/
def mergedLookup (nacl : NameAndCmdline) (k : String) :
    List PrimMatcher → Option String
  | [] => none
  | m :: rest =>
    optOr (mergedLookup nacl k rest)
      (match (primMatch m nacl).2 with
       | none => none
       | some cs => capLookup cs k)

/-- A capture map with no repeated keys (the representation invariant of a
Go map). -/
def CapKeysDistinct (m : CaptureSet) : Prop :=
  (m.map Prod.fst).Nodup

/-- A process whose stat read and cmdline read both succeed. -/
def readOk (p : ProcData) : Bool :=
  p.newStat.isSome && p.cmdLine.isSome

/-! ### Capture-map lemmas -/

theorem optOr_none (a : Option String) : optOr a none = a := by
  cases a <;> rfl

theorem optOr_assoc (a b c : Option String) :
    optOr (optOr a b) c = optOr a (optOr b c) := by
  cases a <;> rfl

theorem capLookup_append (l₁ l₂ : CaptureSet) (k : String) :
    capLookup (l₁ ++ l₂) k = optOr (capLookup l₁ k) (capLookup l₂ k) := by
  induction l₁ with
  | nil => simp [capLookup, optOr]
  | cons p rest ih =>
    obtain ⟨a, b⟩ := p
    by_cases h : a = k
    · simp [capLookup, h, optOr]
    · simp [capLookup, h, optOr, ih]

theorem capLookup_filter (m : CaptureSet) (k k' : String) (h : k ≠ k') :
    capLookup (m.filter (fun p => p.1 ≠ k')) k = capLookup m k := by
  induction m with
  | nil => rfl
  | cons p rest ih =>
    obtain ⟨a, b⟩ := p
    rw [List.filter_cons]
    by_cases ha : a = k'
    · have hak : a ≠ k := fun hh => h (hh ▸ ha)
      rw [if_neg (by simpa using ha), ih]
      simp only [capLookup, if_neg hak]
    · rw [if_pos (by simpa using ha)]
      simp only [capLookup]
      by_cases hak : a = k
      · rw [if_pos hak, if_pos hak]
      · rw [if_neg hak, if_neg hak, ih]

theorem capLookup_capInsert (m : CaptureSet) (k k' v : String) :
    capLookup (capInsert m k' v) k = if k' = k then some v else capLookup m k := by
  unfold capInsert
  by_cases h : k' = k
  · simp only [capLookup, if_pos h]
  · simp only [capLookup, if_neg h]
    exact capLookup_filter m k k' (fun hh => h hh.symm)

theorem capLookup_foldl_capInsert (ps : List (String × String)) (m : CaptureSet)
    (k : String) :
    capLookup (ps.foldl (fun a p => capInsert a p.1 p.2) m) k
      = optOr (capLookup ps.reverse k) (capLookup m k) := by
  induction ps generalizing m with
  | nil => simp [capLookup, optOr]
  | cons p rest ih =>
    obtain ⟨a, b⟩ := p
    simp only [List.foldl_cons, List.reverse_cons]
    rw [ih, capLookup_append, optOr_assoc]
    congr 1
    rw [capLookup_capInsert]
    by_cases h : a = k <;> simp [capLookup, h, optOr]

theorem mem_keys_of_capLookup (m : CaptureSet) (k v : String)
    (h : capLookup m k = some v) : k ∈ m.map Prod.fst := by
  induction m with
  | nil => simp [capLookup] at h
  | cons p rest ih =>
    obtain ⟨a, b⟩ := p
    by_cases ha : a = k
    · simp [ha]
    · rw [capLookup, if_neg ha] at h
      simp [ih h]

theorem capLookup_eq_none (m : CaptureSet) (k : String)
    (h : k ∉ m.map Prod.fst) : capLookup m k = none := by
  induction m with
  | nil => rfl
  | cons p rest ih =>
    obtain ⟨a, b⟩ := p
    simp only [List.map_cons, List.mem_cons, not_or] at h
    have hak : a ≠ k := fun hh => h.1 hh.symm
    simp [capLookup, hak, ih h.2]

theorem capLookup_reverse (m : CaptureSet) (h : CapKeysDistinct m) (k : String) :
    capLookup m.reverse k = capLookup m k := by
  induction m with
  | nil => rfl
  | cons p rest ih =>
    obtain ⟨a, b⟩ := p
    unfold CapKeysDistinct at h
    simp only [List.map_cons, List.nodup_cons] at h
    rw [List.reverse_cons, capLookup_append]
    by_cases ha : a = k
    · subst ha
      have h1 : capLookup rest a = none :=
        capLookup_eq_none _ _ (by simpa using h.1)
      have h2 : capLookup rest.reverse a = none := by
        apply capLookup_eq_none
        simpa using h.1
      simp [capLookup, h1, h2, optOr]
    · rw [ih h.2, capLookup, capLookup, if_neg ha]
      simp [capLookup, ha, optOr_none]

theorem capKeysDistinct_nil : CapKeysDistinct [] := by
  simp [CapKeysDistinct]

theorem capKeysDistinct_capInsert (m : CaptureSet) (k v : String)
    (h : CapKeysDistinct m) : CapKeysDistinct (capInsert m k v) := by
  unfold CapKeysDistinct capInsert at *
  simp only [List.map_cons, List.nodup_cons]
  refine ⟨?_, ?_⟩
  · intro hk
    rw [List.mem_map] at hk
    obtain ⟨p, hp, hpk⟩ := hk
    rw [List.mem_filter] at hp
    have hne : p.1 ≠ k := by simpa using hp.2
    exact hne hpk
  · exact h.sublist ((List.filter_sublist m).map Prod.fst)

theorem capKeysDistinct_foldl (ps : List (String × String)) (m : CaptureSet)
    (h : CapKeysDistinct m) :
    CapKeysDistinct (ps.foldl (fun a p => capInsert a p.1 p.2) m) := by
  induction ps generalizing m with
  | nil => exact h
  | cons p rest ih => exact ih _ (capKeysDistinct_capInsert _ _ _ h)

/-! ### cmdlineMatcher lemmas -/

theorem cmdlineLoop_shape (s : String) (rs : List Regexp) (acc : CaptureSet) :
    cmdlineLoop s rs acc = (false, none) ∨
      ∃ m, cmdlineLoop s rs acc = (true, some m) := by
  induction rs generalizing acc with
  | nil => exact Or.inr ⟨acc, rfl⟩
  | cons r rest ih =>
    cases hf : r.findStringSubmatch s with
    | none => exact Or.inl (by simp only [cmdlineLoop, hf])
    | some caps =>
      simp only [cmdlineLoop, hf]
      by_cases hl : r.subexpNames.length ≠ caps.length
      · rw [if_pos hl]; exact Or.inl rfl
      · rw [if_neg hl]; exact ih _

theorem cmdlineLoop_distinct (s : String) (rs : List Regexp) (acc : CaptureSet)
    (hacc : CapKeysDistinct acc) (m : CaptureSet)
    (h : cmdlineLoop s rs acc = (true, some m)) : CapKeysDistinct m := by
  induction rs generalizing acc with
  | nil =>
    simp only [cmdlineLoop, Prod.mk.injEq, Option.some.injEq] at h
    exact h.2 ▸ hacc
  | cons r rest ih =>
    cases hf : r.findStringSubmatch s with
    | none => simp only [cmdlineLoop, hf] at h; exact absurd h (by simp)
    | some caps =>
      simp only [cmdlineLoop, hf] at h
      by_cases hl : r.subexpNames.length ≠ caps.length
      · rw [if_pos hl] at h; exact absurd h (by simp)
      · rw [if_neg hl] at h
        exact ih _ (capKeysDistinct_foldl _ _ hacc) h

theorem cmdlineLoop_lookup (s : String) (rs : List Regexp) (acc m : CaptureSet)
    (h : cmdlineLoop s rs acc = (true, some m)) (k : String) :
    capLookup m k
      = optOr (capLookup (allPairs rs s).reverse k) (capLookup acc k) := by
  induction rs generalizing acc with
  | nil =>
    simp only [cmdlineLoop, Prod.mk.injEq, Option.some.injEq] at h
    rw [← h.2]
    simp [allPairs, capLookup, optOr]
  | cons r rest ih =>
    cases hf : r.findStringSubmatch s with
    | none => simp only [cmdlineLoop, hf] at h; exact absurd h (by simp)
    | some caps =>
      simp only [cmdlineLoop, hf] at h
      by_cases hl : r.subexpNames.length ≠ caps.length
      · rw [if_pos hl] at h; exact absurd h (by simp)
      · rw [if_neg hl] at h
        rw [ih _ h, capLookup_foldl_capInsert, ← optOr_assoc]
        congr 1
        have hsplit : allPairs (r :: rest) s = regexPairs r s ++ allPairs rest s := by
          simp [allPairs]
        have hre : regexPairs r s = r.subexpNames.zip caps := by
          unfold regexPairs; rw [hf]
        rw [hsplit, List.reverse_append, capLookup_append, hre]

theorem cmdlineLoop_true_iff (s : String) (rs : List Regexp) (acc : CaptureSet)
    (hwf : ∀ r ∈ rs, r.Wf) :
    (cmdlineLoop s rs acc).1 = true
      ↔ ∀ r ∈ rs, r.findStringSubmatch s ≠ none := by
  induction rs generalizing acc with
  | nil => simp [cmdlineLoop]
  | cons r rest ih =>
    cases hf : r.findStringSubmatch s with
    | none =>
      simp only [cmdlineLoop, hf]
      constructor
      · intro h; exact absurd h (by simp)
      · intro h; exact absurd hf (h r (by simp))
    | some caps =>
      have hlen : caps.length = r.subexpNames.length :=
        hwf r (by simp) s caps hf
      simp only [cmdlineLoop, hf]
      rw [if_neg (by omega)]
      rw [ih _ (fun r' hr' => hwf r' (List.mem_cons_of_mem _ hr'))]
      constructor
      · intro h r' hr'
        rcases List.mem_cons.mp hr' with h1 | h2
        · subst h1; rw [hf]; simp
        · exact h r' h2
      · intro h r' hr'
        exact h r' (List.mem_cons_of_mem _ hr')

theorem cmdlineMatch_shape (rs : List Regexp) (nacl : NameAndCmdline) :
    cmdlineMatch rs nacl = (false, none) ∨
      ∃ m, cmdlineMatch rs nacl = (true, some m) :=
  cmdlineLoop_shape _ _ _

theorem cmdlineMatch_distinct (rs : List Regexp) (nacl : NameAndCmdline)
    (m : CaptureSet) (h : cmdlineMatch rs nacl = (true, some m)) :
    CapKeysDistinct m :=
  cmdlineLoop_distinct _ _ _ capKeysDistinct_nil m h

/-! ### andMatcher lemmas -/

theorem exeMatch_snd (exes : List (String × String)) (nacl : NameAndCmdline) :
    (exeMatch exes nacl).2 = none := by
  cases hc : nacl.cmdline with
  | nil => simp only [exeMatch, hc]
  | cons c0 cs =>
    simp only [exeMatch, hc]
    cases hl : capLookup exes (filepathBase c0) with
    | none => rfl
    | some fq => by_cases h : fq = "" <;> simp [h]

theorem primMatch_distinct (m : PrimMatcher) (nacl : NameAndCmdline)
    (cs : CaptureSet) (h : (primMatch m nacl).2 = some cs) :
    CapKeysDistinct cs := by
  cases m with
  | comm comms => simp [primMatch] at h
  | exe exes =>
    rw [show (primMatch (PrimMatcher.exe exes) nacl).2 = (exeMatch exes nacl).2 from rfl,
      exeMatch_snd] at h
    exact absurd h (by simp)
  | cmdline rs =>
    rcases cmdlineMatch_shape rs nacl with hs | ⟨m', hm'⟩
    · rw [show (primMatch (PrimMatcher.cmdline rs) nacl).2
          = (cmdlineMatch rs nacl).2 from rfl, hs] at h
      exact absurd h (by simp)
    · rw [show (primMatch (PrimMatcher.cmdline rs) nacl).2
          = (cmdlineMatch rs nacl).2 from rfl, hm'] at h
      simp only [Option.some.injEq] at h
      exact h ▸ cmdlineMatch_distinct _ _ _ hm'

theorem andLoop_true_iff (nacl : NameAndCmdline) (ms : List PrimMatcher)
    (acc : CaptureSet) :
    (andLoop nacl ms acc).1 = true ↔ ∀ m ∈ ms, (primMatch m nacl).1 = true := by
  induction ms generalizing acc with
  | nil => simp [andLoop]
  | cons m rest ih =>
    unfold andLoop
    rcases hp : primMatch m nacl with ⟨ok, caps⟩
    cases ok with
    | false =>
      constructor
      · intro h; exact absurd h (by simp)
      · intro h
        have hm := h m (by simp)
        rw [hp] at hm
        exact absurd hm (by simp)
    | true =>
      rw [ih]
      constructor
      · intro h m' hm'
        rcases List.mem_cons.mp hm' with h1 | h2
        · subst h1; rw [hp]
        · exact h m' h2
      · intro h m' hm'
        exact h m' (List.mem_cons_of_mem _ hm')

theorem andLoop_lookup (nacl : NameAndCmdline) (ms : List PrimMatcher)
    (acc cs : CaptureSet) (h : andLoop nacl ms acc = (true, some cs)) (k : String) :
    capLookup cs k = optOr (mergedLookup nacl k ms) (capLookup acc k) := by
  induction ms generalizing acc with
  | nil =>
    simp only [andLoop, Prod.mk.injEq, Option.some.injEq] at h
    rw [← h.2]
    simp [mergedLookup, optOr]
  | cons m rest ih =>
    unfold andLoop at h
    rcases hp : primMatch m nacl with ⟨ok, caps⟩
    rw [hp] at h
    cases ok with
    | false => exact absurd h (by simp)
    | true =>
      cases caps with
      | none =>
        rw [ih _ h]
        have hm : mergedLookup nacl k (m :: rest)
            = optOr (mergedLookup nacl k rest) none := by
          simp only [mergedLookup, hp]
        rw [hm, optOr_none]
      | some c =>
        have hdist : CapKeysDistinct c :=
          primMatch_distinct m nacl c (by rw [hp])
        rw [ih _ h, capLookup_foldl_capInsert, capLookup_reverse c hdist]
        have hm : mergedLookup nacl k (m :: rest)
            = optOr (mergedLookup nacl k rest) (capLookup c k) := by
          simp only [mergedLookup, hp]
        rw [hm, optOr_assoc]

/-! ### Collector lemmas -/

theorem lookupGroup_insertGroup_self (gs : Groups) (k : groupKey) (g : procGroup) :
    lookupGroup (insertGroup gs k g) k = some g := by
  simp [insertGroup, lookupGroup]

theorem procStepMatched_shift (f : FirstMatcher) (bt : ℕ) (gs : Groups) (e n : ℕ)
    (stat : ProcStat) (cmdline : List String) (account : Option String) :
    procStepMatched f bt (gs, e + n) stat cmdline account
      = ((procStepMatched f bt (gs, e) stat cmdline account).1,
         (procStepMatched f bt (gs, e) stat cmdline account).2 + n) := by
  rcases hm : firstMatchAndName f ⟨stat.comm, cmdline⟩ with ⟨ok, gname⟩
  cases ok with
  | false => simp only [procStepMatched, hm]
  | true =>
    cases account with
    | some a => simp only [procStepMatched, hm]
    | none =>
      simp only [procStepMatched, hm, Prod.mk.injEq]
      exact ⟨trivial, by omega⟩

theorem procStep_shift (f : FirstMatcher) (bt : ℕ) (gs : Groups) (e n : ℕ)
    (p : ProcData) :
    procStep (some f) bt (gs, e + n) p
      = (procStep (some f) bt (gs, e) p).map (fun st => (st.1, st.2 + n)) := by
  cases hs : p.newStat with
  | none =>
    simp only [procStep, hs, Option.map, Option.some.injEq, Prod.mk.injEq]
    exact ⟨trivial, by omega⟩
  | some stat =>
    cases hc : p.cmdLine with
    | none =>
      simp only [procStep, hs, hc, Option.map, Option.some.injEq, Prod.mk.injEq]
      exact ⟨trivial, by omega⟩
    | some cmdline =>
      simp only [procStep, hs, hc, Option.map]
      exact congrArg some (procStepMatched_shift f bt gs e n stat cmdline p.account)

theorem procStep_isSome (f : FirstMatcher) (bt : ℕ) (st : Groups × ℕ)
    (p : ProcData) : (procStep (some f) bt st p).isSome := by
  cases hs : p.newStat <;> cases hc : p.cmdLine <;> simp [procStep, hs, hc]

theorem procStep_unreadable (mn : Option FirstMatcher) (bt : ℕ) (st : Groups × ℕ)
    (p : ProcData) (h : readOk p = false) :
    procStep mn bt st p = some (st.1, st.2 + 1) := by
  cases hs : p.newStat with
  | none => simp [procStep, hs]
  | some stat =>
    cases hc : p.cmdLine with
    | none => simp [procStep, hs, hc]
    | some cmdline =>
      rw [readOk, hs, hc] at h
      simp at h

theorem procLoop_shift (f : FirstMatcher) (bt : ℕ) (ps : List ProcData)
    (gs : Groups) (e n : ℕ) :
    procLoop (some f) bt ps (gs, e + n)
      = (procLoop (some f) bt ps (gs, e)).map (fun st => (st.1, st.2 + n)) := by
  induction ps generalizing gs e with
  | nil => rfl
  | cons p rest ih =>
    have hiss := procStep_isSome f bt (gs, e) p
    rcases ho : procStep (some f) bt (gs, e) p with _ | ⟨gs', e'⟩
    · rw [ho] at hiss; simp at hiss
    · simp only [procLoop, procStep_shift, ho, Option.map]
      exact ih gs' e'

theorem procLoop_none_panics (bt : ℕ) (ps : List ProcData) (st : Groups × ℕ)
    (h : ∃ p ∈ ps, readOk p = true) : procLoop none bt ps st = none := by
  induction ps generalizing st with
  | nil => rcases h with ⟨p, hp, _⟩; simp at hp
  | cons p rest ih =>
    by_cases hr : readOk p = true
    · have hstep : procStep none bt st p = none := by
        rw [readOk, Bool.and_eq_true] at hr
        rcases Option.isSome_iff_exists.mp hr.1 with ⟨stat, hs⟩
        rcases Option.isSome_iff_exists.mp hr.2 with ⟨cmdline, hc⟩
        simp [procStep, hs, hc]
      simp [procLoop, hstep]
    · have hstep : procStep none bt st p = some (st.1, st.2 + 1) :=
        procStep_unreadable none bt st p (by simpa using hr)
      simp only [procLoop, hstep]
      apply ih
      rcases h with ⟨q, hq, hrq⟩
      rcases List.mem_cons.mp hq with h1 | h2
      · exact absurd (h1 ▸ hrq) hr
      · exact ⟨q, h2, hrq⟩

/-! ### oldestStartTime lemmas -/

theorem foldl_oldestUpdate_eq_min (ts : List ℚ) (c : ℚ) (hc : 0 < c)
    (h : ∀ t ∈ ts, 0 < t) :
    List.foldl oldestUpdate c ts = List.foldl min c ts := by
  induction ts generalizing c with
  | nil => rfl
  | cons t rest ih =>
    have ht : 0 < t := h t (by simp)
    have hstep : oldestUpdate c t = min c t := by
      unfold oldestUpdate
      by_cases hlt : t < c
      · rw [if_pos (Or.inr hlt), min_eq_right (le_of_lt hlt)]
      · have hcond : ¬(c = 0 ∨ t < c) := by
          push_neg
          exact ⟨ne_of_gt hc, le_of_not_lt hlt⟩
        rw [if_neg hcond, min_eq_left (le_of_not_lt hlt)]
    rw [List.foldl_cons, List.foldl_cons, hstep]
    exact ih _ (lt_min hc ht) (fun t' ht' => h t' (List.mem_cons_of_mem _ ht'))

theorem foldl_min_pos (ts : List ℚ) (c : ℚ) (hc : 0 < c)
    (h : ∀ t ∈ ts, 0 < t) : 0 < List.foldl min c ts := by
  induction ts generalizing c with
  | nil => exact hc
  | cons t rest ih =>
    have ht : 0 < t := h t (by simp)
    rw [List.foldl_cons]
    exact ih _ (lt_min hc ht) (fun t' ht' => h t' (List.mem_cons_of_mem _ ht'))

/-! ### Concrete-regex well-formedness -/

theorem reWorker_wf : reWorker.Wf := by
  intro s caps h
  simp only [reWorker] at h
  cases hd : dropPref "worker".data s.data with
  | none => rw [hd] at h; exact absurd h (by simp)
  | some rest =>
    rw [hd] at h
    simp only [Option.some.injEq] at h
    rw [← h]
    rfl

theorem roleAt_length (cs : List Char) (r : List String) (h : roleAt cs = some r) :
    r.length = 2 := by
  cases hd : dropPref "--role=".data cs with
  | none => simp only [roleAt, hd] at h; exact absurd h (by simp)
  | some rest =>
    simp only [roleAt, hd] at h
    by_cases hw : rest.takeWhile wordChar = []
    · rw [if_pos hw] at h; exact absurd h (by simp)
    · rw [if_neg hw] at h
      simp only [Option.some.injEq] at h
      rw [← h]
      rfl

theorem findRole_length (cs : List Char) (r : List String)
    (h : findRole cs = some r) : r.length = 2 := by
  induction cs with
  | nil => exact roleAt_length [] r (by simpa [findRole] using h)
  | cons c rest ih =>
    cases ha : roleAt (c :: rest) with
    | some r' =>
      simp only [findRole, ha, Option.some.injEq] at h
      exact h ▸ roleAt_length _ _ ha
    | none =>
      simp only [findRole, ha] at h
      exact ih h

theorem reRole_wf : reRole.Wf := by
  intro s caps h
  simp only [reRole] at h
  rw [findRole_length s.data caps h]
  rfl

/-! ### Claim theorems -/

/-- C1: classification evaluates the ordered rule set strictly in
configuration order and returns the first matching rule's name (so when an
earlier rule and a later rule both match, the earlier one's name is the
reported one); and when no rule matches a process, the collector's loop
iteration for that process leaves both the group map and the scrape-error
counter unchanged — the process contributes to no group and to no error
counter. -/
theorem first_match_wins_and_unmatched_untouched :
    (∀ (f : FirstMatcher) (nacl : NameAndCmdline),
        firstMatchAndName f nacl
          = match f.find? (fun m => (matchAndName m nacl).1) with
            | some m => (true, (matchAndName m nacl).2)
            | none => (false, "")) ∧
    (∀ (f : FirstMatcher) (bt : ℕ) (gs : Groups) (e : ℕ) (p : ProcData)
        (stat : ProcStat) (cmdline : List String),
        p.newStat = some stat → p.cmdLine = some cmdline →
        (firstMatchAndName f ⟨stat.comm, cmdline⟩).1 = false →
        procStep (some f) bt (gs, e) p = some (gs, e)) := by
  constructor
  · intro f nacl
    induction f with
    | nil => rfl
    | cons m rest ih =>
      rcases hm : matchAndName m nacl with ⟨ok, name⟩
      cases ok with
      | true =>
        rw [List.find?_cons_of_pos _ (by rw [hm])]
        simp only [firstMatchAndName, hm]
      | false =>
        rw [List.find?_cons_of_neg _ (by rw [hm]; simp)]
        simp only [firstMatchAndName, hm]
        exact ih
  · intro f bt gs e p stat cmdline hs hc hmatch
    rcases hm : firstMatchAndName f ⟨stat.comm, cmdline⟩ with ⟨ok, g⟩
    rw [hm] at hmatch
    simp only at hmatch
    subst hmatch
    simp only [procStep, hs, hc, procStepMatched, hm]

/-- Witness for C1: with two rules that both match the process, the first
rule's name "A" is reported; an unmatched process leaves the state (groups,
error count) unchanged. -/
theorem first_match_wins_and_unmatched_untouched_witness :
    firstMatchAndName
        [⟨[.comm ["x"]], ⟨fun _ => "A"⟩⟩, ⟨[.comm ["x"]], ⟨fun _ => "B"⟩⟩]
        ⟨"x", []⟩ = (true, "A") ∧
    procStep (some [⟨[.comm ["y"]], exeBaseTemplate⟩]) 7 ([], 3)
        ⟨1, some ⟨"x", 0, 0, 0, 0, 1, 0⟩, some ["x"], some "alice"⟩
      = some ([], 3) := by
  constructor
  · rw [first_match_wins_and_unmatched_untouched.1
      [⟨[.comm ["x"]], ⟨fun _ => "A"⟩⟩, ⟨[.comm ["x"]], ⟨fun _ => "B"⟩⟩]
      ⟨"x", []⟩]
    decide
  · exact first_match_wins_and_unmatched_untouched.2
      [⟨[.comm ["y"]], exeBaseTemplate⟩] 7 [] 3
      ⟨1, some ⟨"x", 0, 0, 0, 0, 1, 0⟩, some ["x"], some "alice"⟩
      ⟨"x", 0, 0, 0, 0, 1, 0⟩ ["x"] rfl rfl (by decide)

/-- C2 counterexample: matching cmdline ["worker", "--role=ingest"] against
the patterns ^worker and --role=(?P\x7brole\x7d...\w+) succeeds and does
yield role=ingest, but the returned CaptureSet also binds the empty-string
key (to the last regex's whole match ""--role=ingest""); the empty string
is not a named capture group's name (the only named group is "role"), so
the claim that no keys other than named-group names appear is false. -/
theorem cmdline_captures_empty_key_counterexample :
    cmdlineMatch [reWorker, reRole] ⟨"worker", ["worker", "--role=ingest"]⟩
        = (true, some [("role", "ingest"), ("", "--role=ingest")]) ∧
    capLookup [("role", "ingest"), ("", "--role=ingest")] ""
        = some "--role=ingest" ∧
    ("" : String) ≠ "role" :=
  ⟨by decide, by decide, by decide⟩

/-- C2 (amended): on a successful cmdline match, every key's value is the
last binding inserted across the regex list in order (so a later regex's
same-named group silently overwrites an earlier one), and every key of the
result is one of the regexes' subexp names — a named group's name or the
empty string, under which index 0 (the whole match) and unnamed groups are
inserted. The concrete example still yields role=ingest. -/
theorem cmdline_captures_content (rs : List Regexp) (nacl : NameAndCmdline)
    (m : CaptureSet) (h : cmdlineMatch rs nacl = (true, some m)) :
    (∀ k, capLookup m k
        = capLookup (allPairs rs (String.intercalate " " nacl.cmdline)).reverse k) ∧
    (∀ k v, capLookup m k = some v → ∃ r ∈ rs, k ∈ r.subexpNames) := by
  have h1 := cmdlineLoop_lookup (String.intercalate " " nacl.cmdline) rs [] m h
  have h2 : ∀ k, capLookup m k
      = capLookup (allPairs rs (String.intercalate " " nacl.cmdline)).reverse k := by
    intro k
    rw [h1 k]
    simp [capLookup, optOr_none]
  refine ⟨h2, ?_⟩
  intro k v hv
  rw [h2 k] at hv
  have hk := mem_keys_of_capLookup _ _ _ hv
  rw [List.map_reverse, List.mem_reverse] at hk
  unfold allPairs at hk
  rw [List.map_flatten, List.mem_flatten] at hk
  obtain ⟨l, hl, hkl⟩ := hk
  rw [List.mem_map] at hl
  obtain ⟨a, ha, rfl⟩ := hl
  rw [List.mem_map] at ha
  obtain ⟨r, hr, rfl⟩ := ha
  refine ⟨r, hr, ?_⟩
  rw [List.mem_map] at hkl
  obtain ⟨pr, hpr, hprk⟩ := hkl
  unfold regexPairs at hpr
  cases hf : r.findStringSubmatch (String.intercalate " " nacl.cmdline) with
  | none => rw [hf] at hpr; simp at hpr
  | some caps =>
    rw [hf] at hpr
    exact hprk ▸ (List.of_mem_zip hpr).1

/-- Witness for C2 (amended) at the spec's example: the "role" binding
agrees with the last-binding lookup over the contributed pairs, role is a
named group of one of the regexes, and the value is "ingest". -/
theorem cmdline_captures_content_witness :
    capLookup [("role", "ingest"), ("", "--role=ingest")] "role"
        = capLookup (allPairs [reWorker, reRole]
            (String.intercalate " " ["worker", "--role=ingest"])).reverse "role" ∧
    (∃ r ∈ [reWorker, reRole], "role" ∈ r.subexpNames) ∧
    capLookup [("role", "ingest"), ("", "--role=ingest")] "role" = some "ingest" := by
  have h := cmdline_captures_content [reWorker, reRole]
      ⟨"worker", ["worker", "--role=ingest"]⟩
      [("role", "ingest"), ("", "--role=ingest")] (by decide)
  exact ⟨h.1 "role", h.2 "role" "ingest" (by decide), by decide⟩

/-- C3: the executable matcher fails on an empty cmdline; an `exe:` entry
given as a full path (it contains a slash) matches exactly the processes
whose first cmdline token is that exact path; a bare entry matches exactly
the processes whose first cmdline token has that basename, regardless of
directory. -/
theorem exe_matcher_path_semantics :
    (∀ (exes : List (String × String)) (name : String),
        exeMatch exes ⟨name, []⟩ = (false, none)) ∧
    (∀ (e : String) (nacl : NameAndCmdline), e.data.contains '/' = true →
        ((exeMatch (buildExes [e]) nacl).1 = true
          ↔ ∃ c0 cs, nacl.cmdline = c0 :: cs ∧ c0 = e)) ∧
    (∀ (e : String) (nacl : NameAndCmdline), e.data.contains '/' = false →
        ((exeMatch (buildExes [e]) nacl).1 = true
          ↔ ∃ c0 cs, nacl.cmdline = c0 :: cs ∧ filepathBase c0 = e)) := by
  refine ⟨?_, ?_, ?_⟩
  · intro exes name
    simp [exeMatch]
  · intro e nacl hcont
    have hee : e ≠ "" := by
      intro he
      rw [he] at hcont
      exact absurd hcont (by decide)
    have hbe : buildExes [e] = [(filepathBase e, e)] := by
      simp only [buildExes, List.foldl_cons, List.foldl_nil]
      rw [if_pos hcont]
      rfl
    cases hc : nacl.cmdline with
    | nil =>
      simp only [exeMatch, hc]
      constructor
      · intro hh; exact absurd hh (by simp)
      · rintro ⟨c0, cs, hcs, _⟩; exact absurd hcs (by simp)
    | cons c0 cs =>
      by_cases hb : filepathBase e = filepathBase c0
      · have hcl : capLookup [(filepathBase e, e)] (filepathBase c0) = some e := by
          simp [capLookup, hb]
        simp only [exeMatch, hc, hbe, hcl, if_neg hee]
        constructor
        · intro hh
          exact ⟨c0, cs, rfl, (of_decide_eq_true hh).symm⟩
        · rintro ⟨c0', cs', hcs, he⟩
          simp only [List.cons.injEq] at hcs
          rw [← hcs.1] at he
          exact decide_eq_true he.symm
      · have hcl : capLookup [(filepathBase e, e)] (filepathBase c0) = none := by
          simp [capLookup, hb]
        simp only [exeMatch, hc, hbe, hcl]
        constructor
        · intro hh; exact absurd hh (by simp)
        · rintro ⟨c0', cs', hcs, he⟩
          simp only [List.cons.injEq] at hcs
          rw [← hcs.1] at he
          exact absurd (he ▸ rfl) hb
  · intro e nacl hcont
    have hbe : buildExes [e] = [(e, "")] := by
      simp only [buildExes, List.foldl_cons, List.foldl_nil]
      rw [if_neg (by rw [hcont]; simp)]
      rfl
    cases hc : nacl.cmdline with
    | nil =>
      simp only [exeMatch, hc]
      constructor
      · intro hh; exact absurd hh (by simp)
      · rintro ⟨c0, cs, hcs, _⟩; exact absurd hcs (by simp)
    | cons c0 cs =>
      by_cases hb : e = filepathBase c0
      · have hcl : capLookup [(e, "")] (filepathBase c0) = some "" := by
          simp [capLookup, hb]
        simp only [exeMatch, hc, hbe, hcl, if_pos rfl]
        constructor
        · intro _; exact ⟨c0, cs, rfl, hb.symm⟩
        · intro _; rfl
      · have hcl : capLookup [(e, "")] (filepathBase c0) = none := by
          simp [capLookup, hb]
        simp only [exeMatch, hc, hbe, hcl]
        constructor
        · intro hh; exact absurd hh (by simp)
        · rintro ⟨c0', cs', hcs, he⟩
          simp only [List.cons.injEq] at hcs
          rw [← hcs.1] at he
          exact absurd he.symm hb

/-- Witness for C3 at the spec's examples: `exe: ["/usr/bin/foo"]` rejects
an empty cmdline, accepts first token /usr/bin/foo, rejects /opt/foo;
`exe: ["foo"]` accepts /opt/foo by basename. -/
theorem exe_matcher_path_semantics_witness :
    exeMatch (buildExes ["/usr/bin/foo"]) ⟨"foo", []⟩ = (false, none) ∧
    (exeMatch (buildExes ["/usr/bin/foo"]) ⟨"foo", ["/usr/bin/foo"]⟩).1 = true ∧
    ¬(exeMatch (buildExes ["/usr/bin/foo"]) ⟨"foo", ["/opt/foo"]⟩).1 = true ∧
    (exeMatch (buildExes ["foo"]) ⟨"foo", ["/opt/foo"]⟩).1 = true := by
  refine ⟨exe_matcher_path_semantics.1 (buildExes ["/usr/bin/foo"]) "foo",
    (exe_matcher_path_semantics.2.1 "/usr/bin/foo" _ (by decide)).mpr
      ⟨"/usr/bin/foo", [], rfl, rfl⟩,
    fun hh => ?_,
    (exe_matcher_path_semantics.2.2 "foo" _ (by decide)).mpr
      ⟨"/opt/foo", [], rfl, by decide⟩⟩
  obtain ⟨c0, cs, hcs, he⟩ :=
    (exe_matcher_path_semantics.2.1 "/usr/bin/foo" _ (by decide)).mp hh
  simp only [List.cons.injEq] at hcs
  rw [← hcs.1] at he
  exact absurd he (by decide)

/-- C4: with a non-empty list of well-formed regexes, the cmdline matcher
succeeds iff every configured regex finds at least one match in the single
string formed by joining the cmdline tokens with one space; any failure
makes the whole matcher return no-match with no partial CaptureSet. -/
theorem cmdline_matcher_conjunction (rs : List Regexp) (nacl : NameAndCmdline)
    (_hne : rs ≠ []) (hwf : ∀ r ∈ rs, r.Wf) :
    ((cmdlineMatch rs nacl).1 = true
      ↔ ∀ r ∈ rs,
          r.findStringSubmatch (String.intercalate " " nacl.cmdline) ≠ none) ∧
    ((cmdlineMatch rs nacl).1 = false → cmdlineMatch rs nacl = (false, none)) := by
  constructor
  · exact cmdlineLoop_true_iff _ _ _ hwf
  · intro h
    rcases cmdlineMatch_shape rs nacl with hs | ⟨m, hm⟩
    · exact hs
    · rw [hm] at h
      exact absurd h (by simp)

/-- Witness for C4 at the spec's example: against cmdline ["worker"] the
pair of patterns fails entirely — no partial captures are returned. -/
theorem cmdline_matcher_conjunction_witness :
    cmdlineMatch [reWorker, reRole] ⟨"worker", ["worker"]⟩ = (false, none) := by
  have hwf : ∀ r ∈ [reWorker, reRole], r.Wf := by
    intro r hr
    rcases List.mem_cons.mp hr with h1 | h2
    · exact h1 ▸ reWorker_wf
    · rcases List.mem_cons.mp h2 with h3 | h4
      · exact h3 ▸ reRole_wf
      · exact absurd h4 (by simp)
  have h := cmdline_matcher_conjunction [reWorker, reRole] ⟨"worker", ["worker"]⟩
    (by simp) hwf
  apply h.2
  cases hb : (cmdlineMatch [reWorker, reRole] ⟨"worker", ["worker"]⟩).1
  · rfl
  · have hall := h.1.mp hb
    exact absurd (hall reRole (by simp)) (by decide)

/-- C5: the composite matcher matches iff every configured primitive
matches (a rule with both a comm and a cmdline matcher fails on a process
satisfying only one), and on success each key of the merged CaptureSet
resolves to the value produced by the last matcher that bound it — later
matchers overwrite earlier ones on collision. -/
theorem and_matcher_conjunction_and_merge (ms : List PrimMatcher)
    (nacl : NameAndCmdline) :
    ((andMatch ms nacl).1 = true ↔ ∀ m ∈ ms, (primMatch m nacl).1 = true) ∧
    (∀ cs, andMatch ms nacl = (true, some cs) →
        ∀ k, capLookup cs k = mergedLookup nacl k ms) := by
  refine ⟨andLoop_true_iff nacl ms [], ?_⟩
  intro cs h k
  rw [andLoop_lookup nacl ms [] cs h k]
  simp [capLookup, optOr_none]

/-- Witness for C5: a rule with both a comm and a cmdline matcher fails on
a process satisfying only the comm part; on full success, the merged set's
"role" key resolves per the later-overwrites-earlier lookup. -/
theorem and_matcher_conjunction_and_merge_witness :
    (andMatch [.comm ["worker"], .cmdline [reRole]] ⟨"worker", ["worker"]⟩).1
        = false ∧
    capLookup [("", "--role=ingest"), ("role", "ingest")] "role"
      = mergedLookup ⟨"worker", ["worker", "--role=ingest"]⟩ "role"
          [.comm ["worker"], .cmdline [reWorker, reRole]] := by
  constructor
  · have h := (and_matcher_conjunction_and_merge
        [.comm ["worker"], .cmdline [reRole]] ⟨"worker", ["worker"]⟩).1
    cases hb : (andMatch [.comm ["worker"], .cmdline [reRole]]
        ⟨"worker", ["worker"]⟩).1
    · rfl
    · have hall := h.mp hb
      exact absurd (hall (.cmdline [reRole]) (by simp)) (by decide)
  · exact (and_matcher_conjunction_and_merge
        [.comm ["worker"], .cmdline [reWorker, reRole]]
        ⟨"worker", ["worker", "--role=ingest"]⟩).2
      [("", "--role=ingest"), ("role", "ingest")] (by decide) "role"

/-- C6: a rule configured without a name template uses the default template
rendering ExeBase, so on a match the produced group name is the basename of
the first cmdline token when the cmdline is non-empty, and the process's
command name when the cmdline is empty. -/
theorem default_template_renders_exebase (ms : List PrimMatcher) (t : Template)
    (nacl : NameAndCmdline) (h : (andMatch ms nacl).1 = true) :
    matchAndName ⟨ms, selectTemplate "" t⟩ nacl
      = (true, match nacl.cmdline with
               | [] => nacl.name
               | c0 :: _ => filepathBase c0) := by
  rcases ha : andMatch ms nacl with ⟨ok, caps⟩
  rw [ha] at h
  simp only at h
  subst h
  simp only [matchAndName, ha, selectTemplate, if_pos rfl, exeBaseTemplate]
  rfl

/-- Witness for C6 at the spec's example: no name template and cmdline
["/opt/app/bin/server", "-x"] yield the group name "server". -/
theorem default_template_renders_exebase_witness :
    matchAndName ⟨[.comm ["server"]], selectTemplate "" exeBaseTemplate⟩
        ⟨"server", ["/opt/app/bin/server", "-x"]⟩ = (true, "server") := by
  rw [default_template_renders_exebase [.comm ["server"]] exeBaseTemplate
      ⟨"server", ["/opt/app/bin/server", "-x"]⟩ (by decide)]
  decide

/-- C7: within one pass, every process whose stat read or cmdline read
fails adds exactly one scrape error and is skipped, and the loop's outcome
equals the loop run over only the readable processes with the error counter
advanced by exactly the number of read-failing processes — per-process
failures never abort the pass and do not disturb the other processes'
classification and aggregation. -/
theorem read_failures_counted_and_skipped (f : FirstMatcher) (bt : ℕ)
    (ps : List ProcData) (gs : Groups) (e : ℕ) :
    procLoop (some f) bt ps (gs, e)
      = procLoop (some f) bt (ps.filter readOk)
          (gs, e + (ps.filter (fun p => !(readOk p))).length) := by
  induction ps generalizing gs e with
  | nil => simp
  | cons p rest ih =>
    by_cases hr : readOk p = true
    · rw [List.filter_cons_of_pos hr, List.filter_cons_of_neg (by simp [hr])]
      have hiss := procStep_isSome f bt (gs, e) p
      rcases ho : procStep (some f) bt (gs, e) p with _ | ⟨gs', e'⟩
      · rw [ho] at hiss; exact absurd hiss (by simp)
      · have hshift := procStep_shift f bt gs e
          ((rest.filter (fun p => !(readOk p))).length) p
        rw [ho] at hshift
        simp only [procLoop, ho, hshift, Option.map]
        exact ih gs' e'
    · have hr' : readOk p = false := by simpa using hr
      rw [List.filter_cons_of_neg (by simp [hr']),
        List.filter_cons_of_pos (by simp [hr'])]
      have hstep := procStep_unreadable (some f) bt (gs, e) p hr'
      simp only [procLoop, hstep, List.length_cons]
      rw [ih]
      have harith : e + 1 + (rest.filter (fun p => !(readOk p))).length
          = e + ((rest.filter (fun p => !(readOk p))).length + 1) := by omega
      rw [harith]

/-- C8: a classified process whose owning-account resolution fails adds one
scrape error and is still aggregated rather than dropped: its metrics are
folded into the bucket keyed by the empty-string account and its group
name, whose process count grows by one. -/
theorem account_failure_counted_and_aggregated (f : FirstMatcher) (bt : ℕ)
    (gs : Groups) (e : ℕ) (p : ProcData) (stat : ProcStat)
    (cmdline : List String) (gname : String)
    (hs : p.newStat = some stat) (hc : p.cmdLine = some cmdline)
    (hmatch : firstMatchAndName f ⟨stat.comm, cmdline⟩ = (true, gname))
    (hacct : p.account = none) :
    procStep (some f) bt (gs, e) p
      = some (procMetricsUpdate gs gname "" stat bt, e + 1) ∧
    (lookupGroup (procMetricsUpdate gs gname "" stat bt) ⟨"", gname⟩).map
        (fun g => g.numProcs)
      = some (((lookupGroup gs ⟨"", gname⟩).map (fun g => g.numProcs)).getD 0
          + 1) := by
  constructor
  · simp only [procStep, hs, hc, procStepMatched, hmatch, hacct]
  · simp only [procMetricsUpdate]
    cases hl : lookupGroup gs ⟨"", gname⟩ <;>
      simp [hl, lookupGroup_insertGroup_self]

/-- Witness for C8: a matched process with a failed account lookup lands in
the ("", "a") bucket and bumps the error counter from 0 to 1. -/
theorem account_failure_counted_and_aggregated_witness :
    procStep (some [⟨[.comm ["a"]], exeBaseTemplate⟩]) 0 ([], 0)
        ⟨1, some ⟨"a", 0, 0, 0, 0, 1, 0⟩, some ["a"], none⟩
      = some (procMetricsUpdate [] "a" "" ⟨"a", 0, 0, 0, 0, 1, 0⟩ 0, 0 + 1) ∧
    (lookupGroup (procMetricsUpdate [] "a" "" ⟨"a", 0, 0, 0, 0, 1, 0⟩ 0)
        ⟨"", "a"⟩).map (fun g => g.numProcs)
      = some (((lookupGroup [] ⟨"", "a"⟩).map (fun g => g.numProcs)).getD 0
          + 1) :=
  account_failure_counted_and_aggregated [⟨[.comm ["a"]], exeBaseTemplate⟩] 0
    [] 0 ⟨1, some ⟨"a", 0, 0, 0, 0, 1, 0⟩, some ["a"], none⟩
    ⟨"a", 0, 0, 0, 0, 1, 0⟩ ["a"] "a" rfl rfl (by decide) rfl

/-- C9 counterexample: with a failed boot-time read (boot time 0) two
matched processes fold start times 0 and 5 into the ("alice", "a") group;
the stored oldestStartTimeSeconds ends at 5 even though the folded start
times were 0 and 5 with minimum 0 — a genuine start time of exactly 0 is
indistinguishable from the unset sentinel, so the stored value is neither
the minimum nor different from what the claim forbids. -/
theorem oldest_start_time_counterexample :
    (readProcGroups
        (NewProcCollector "/proc" (some [⟨[.comm ["a"]], exeBaseTemplate⟩]))
        ⟨some [⟨1, some ⟨"a", 0, 0, 0, 0, 1, 0⟩, some ["a"], some "alice"⟩,
               ⟨2, some ⟨"a", 0, 0, 0, 0, 1, 500⟩, some ["a"], some "alice"⟩],
          none⟩).map
      (fun r => ((lookupGroup r.1 ⟨"alice", "a"⟩).map
        (fun g => g.oldestStartTime), r.2))
      = some (some 5, 1) ∧
    ((0 : ℕ) : ℚ) + ((0 : ℕ) : ℚ) / userHZ = 0 ∧
    ((0 : ℕ) : ℚ) + ((500 : ℕ) : ℚ) / userHZ = 5 ∧
    (0 : ℚ) < 5 := by
  have h1 : filepathBase "a" = "a" := by decide
  refine ⟨?_, by norm_num [userHZ], by norm_num [userHZ], by norm_num⟩
  norm_num [readProcGroups, NewProcCollector, procLoop, procStep,
    procStepMatched, firstMatchAndName, matchAndName, andMatch, andLoop,
    primMatch, procMetricsUpdate, lookupGroup, insertGroup, oldestUpdate,
    userHZ, exeBaseTemplate, h1, groupKey.mk.injEq]

/-- C9 (amended): each fold of a process into a group accumulator updates
oldestStartTimeSeconds exactly by `oldestUpdate` (the 0 sentinel is always
replaced by the incoming start time; otherwise the stored value is replaced
only when the new start time is strictly smaller), and provided every
folded start time is strictly positive — a start time of exactly 0 aliases
the unset sentinel and must be excluded — the accumulated value equals the
true minimum of the folded start times and is never the sentinel once at
least one process has been folded in. -/
theorem oldest_start_time_is_min (gs : Groups) (gname account : String)
    (stat : ProcStat) (bt : ℕ) (t0 : ℚ) (ts : List ℚ)
    (h0 : 0 < t0) (h : ∀ t ∈ ts, 0 < t) :
    ((lookupGroup (procMetricsUpdate gs gname account stat bt)
        ⟨account, gname⟩).map (fun g => g.oldestStartTime)
      = some (oldestUpdate
          (((lookupGroup gs ⟨account, gname⟩).map
            (fun g => g.oldestStartTime)).getD 0)
          ((bt : ℚ) + (stat.starttime : ℚ) / userHZ))) ∧
    List.foldl oldestUpdate 0 (t0 :: ts) = List.foldl min t0 ts ∧
    0 < List.foldl oldestUpdate 0 (t0 :: ts) := by
  have hfirst : oldestUpdate 0 t0 = t0 := by simp [oldestUpdate]
  refine ⟨?_, ?_, ?_⟩
  · simp only [procMetricsUpdate]
    cases hl : lookupGroup gs ⟨account, gname⟩ <;>
      simp [hl, lookupGroup_insertGroup_self]
  · rw [List.foldl_cons, hfirst]
    exact foldl_oldestUpdate_eq_min ts t0 h0 h
  · rw [List.foldl_cons, hfirst, foldl_oldestUpdate_eq_min ts t0 h0 h]
    exact foldl_min_pos ts t0 h0 h

/-- Witness for C9 (amended): folding positive start times 3, 2, 7 from the
sentinel yields 2, the true minimum, which is positive. -/
theorem oldest_start_time_is_min_witness :
    ((lookupGroup (procMetricsUpdate [] "a" "x" ⟨"a", 0, 0, 0, 0, 1, 0⟩ 0)
        ⟨"x", "a"⟩).map (fun g => g.oldestStartTime)
      = some (oldestUpdate
          (((lookupGroup ([] : Groups) ⟨"x", "a"⟩).map
            (fun g => g.oldestStartTime)).getD 0)
          (((0 : ℕ) : ℚ) + (((0 : ℕ) : ℚ)) / userHZ))) ∧
    List.foldl oldestUpdate 0 ((3 : ℚ) :: [2, 7]) = List.foldl min 3 [2, 7] ∧
    0 < List.foldl oldestUpdate 0 ((3 : ℚ) :: [2, 7]) :=
  oldest_start_time_is_min [] "a" "x" ⟨"a", 0, 0, 0, 0, 1, 0⟩ 0 3 [2, 7]
    (by norm_num)
    (by intro t ht; simp only [List.mem_cons, List.not_mem_nil, or_false] at ht
        rcases ht with rfl | rfl <;> norm_num)

/-- C10: when no config-file flag is supplied, main leaves the collector's
MatchNamer a nil interface, and the aggregation pass over a process table
containing at least one readable process faults with a nil-interface method
call (modelled as `none`) instead of returning a result set. -/
theorem nil_matchnamer_panics (procfsPath : String) (parsed : FirstMatcher)
    (inp : ScrapeInput) (procs : List ProcData) (p : ProcData)
    (hprocs : inp.allProcs = some procs) (hp : p ∈ procs)
    (hread : readOk p = true) :
    mainMatchnamer "" parsed = none ∧
    readProcGroups (NewProcCollector procfsPath (mainMatchnamer "" parsed)) inp
      = none := by
  have hmn : mainMatchnamer "" parsed = none := by simp [mainMatchnamer]
  refine ⟨hmn, ?_⟩
  cases hb : inp.bootTime with
  | none =>
    simp only [readProcGroups, NewProcCollector, hmn, hprocs, hb]
    exact procLoop_none_panics _ _ _ ⟨p, hp, hread⟩
  | some bt =>
    simp only [readProcGroups, NewProcCollector, hmn, hprocs, hb]
    exact procLoop_none_panics _ _ _ ⟨p, hp, hread⟩

/-- Witness for C10: with one readable process the configless pass yields
no result. -/
theorem nil_matchnamer_panics_witness :
    mainMatchnamer "" [] = none ∧
    readProcGroups (NewProcCollector "/proc" (mainMatchnamer "" []))
        ⟨some [⟨1, some ⟨"a", 0, 0, 0, 0, 1, 0⟩, some ["a"], some "alice"⟩],
          some 3⟩
      = none :=
  nil_matchnamer_panics "/proc" []
    ⟨some [⟨1, some ⟨"a", 0, 0, 0, 0, 1, 0⟩, some ["a"], some "alice"⟩],
      some 3⟩
    [⟨1, some ⟨"a", 0, 0, 0, 0, 1, 0⟩, some ["a"], some "alice"⟩]
    ⟨1, some ⟨"a", 0, 0, 0, 0, 1, 0⟩, some ["a"], some "alice"⟩
    rfl (by simp) (by decide)

end ProcExporter
